import Mathlib

/-!
Verification of the medical SQL agent (`go_sql_agent`): a shallow embedding of
the tokenization engine, the model-response interpreter, the query/export
tools, the CSV sink and the runner's loop guard, together with theorems about
the specified behaviour of each component.
-/

set_option autoImplicit false

namespace MedBrat

/-! ## Go string primitives

The agent uses `strings.Contains`, `strings.HasPrefix`, `strings.ToUpper`,
`strings.ToLower`, `strings.TrimSpace` and `strings.Split(s, "\n")`.  They are
embedded below on `List Char`.  Case mapping is ASCII (`Char.toUpper` /
`Char.toLower`), which agrees with Go on every ASCII keyword and field name the
agent compares.  `isGoSpace` is the Latin-1 part of `unicode.IsSpace`. -/

def startsWithL : List Char → List Char → Bool
  | _, [] => true
  | [], _ :: _ => false
  | a :: as, b :: bs => a == b && startsWithL as bs

def containsL : List Char → List Char → Bool
  | [], needle => needle.isEmpty
  | h :: t, needle => startsWithL (h :: t) needle || containsL t needle

def goContains (s sub : String) : Bool := containsL s.data sub.data

def goStartsWith (s p : String) : Bool := startsWithL s.data p.data

def goToUpper (s : String) : String := ⟨s.data.map Char.toUpper⟩

def goToLower (s : String) : String := ⟨s.data.map Char.toLower⟩

def isGoSpace (c : Char) : Bool :=
  c == ' ' || c == '\t' || c == '\n' || c == Char.ofNat 11 || c == Char.ofNat 12 ||
  c == '\r' || c == Char.ofNat 0x85 || c == Char.ofNat 0xA0

def goTrimSpace (s : String) : String :=
  ⟨((s.data.dropWhile isGoSpace).reverse.dropWhile isGoSpace).reverse⟩

/-- `strings.Split(s, "\n")`: the list of newline-separated chunks. -/
def splitLines : List Char → List (List Char)
  | [] => [[]]
  | c :: t =>
    match splitLines t with
    | [] => [[]]
    | l :: ls => if c = '\n' then [] :: l :: ls else (c :: l) :: ls

/-! ## Decimal rendering and `%03d`

`fmt.Sprintf("%s_%03d", tokenType, counter)` mints counter tokens.  `natDec`
is decimal notation of a natural number (fuel-structured so that it reduces in
the kernel); `pad3` zero-pads to width 3 exactly as `%03d` does. -/

def natDecAux : Nat → Nat → List Char
  | 0, _ => []
  | fuel + 1, n =>
    if n < 10 then [Nat.digitChar n]
    else natDecAux fuel (n / 10) ++ [Nat.digitChar (n % 10)]

def natDec (n : Nat) : List Char := natDecAux (n + 1) n

def pad3 (n : Nat) : List Char :=
  List.replicate (3 - (natDec n).length) '0' ++ natDec n

def pad3Str (n : Nat) : String := ⟨pad3 n⟩

/-- The counter token `fmt.Sprintf("%s_%03d", ty, c)`. -/
def mkToken (ty : String) (c : Nat) : String := ty ++ "_" ++ pad3Str c

def isDigitCh (c : Char) : Bool := decide ('0' ≤ c) && decide (c ≤ '9')

/-- Value of a digit string, left inverse of `natDec` (and of `pad3`). -/
def digitsVal (l : List Char) : Nat :=
  l.foldl (fun a c => 10 * a + (c.toNat - 48)) 0

/-! ## SHA-256

`TokenizeWithHash` mints `fmt.Sprintf("%s_%s", tokenType, hex(sha256(value))[:8])`.
SHA-256 (FIPS 180-4) is embedded over `Nat` with explicit `% 2^32`, on the
UTF-8 bytes of the value, exactly as `sha256.Sum256([]byte(value))` computes. -/

def utf8Char (c : Char) : List Nat :=
  let n := c.toNat
  if n < 0x80 then [n]
  else if n < 0x800 then [0xC0 + n / 64, 0x80 + n % 64]
  else if n < 0x10000 then [0xE0 + n / 4096, 0x80 + (n / 64) % 64, 0x80 + n % 64]
  else [0xF0 + n / 262144, 0x80 + (n / 4096) % 64, 0x80 + (n / 64) % 64, 0x80 + n % 64]

def utf8Bytes (s : String) : List Nat := (s.data.map utf8Char).flatten

def M32 : Nat := 4294967296

def rotr32 (x n : Nat) : Nat := ((x >>> n) ||| (x <<< (32 - n))) % M32

def shaCh (e f g : Nat) : Nat := (e &&& f) ^^^ ((4294967295 ^^^ e) &&& g)

def shaMaj (a b c : Nat) : Nat := (a &&& b) ^^^ (a &&& c) ^^^ (b &&& c)

def bigSigma0 (x : Nat) : Nat := rotr32 x 2 ^^^ rotr32 x 13 ^^^ rotr32 x 22

def bigSigma1 (x : Nat) : Nat := rotr32 x 6 ^^^ rotr32 x 11 ^^^ rotr32 x 25

def smallSigma0 (x : Nat) : Nat := rotr32 x 7 ^^^ rotr32 x 18 ^^^ (x >>> 3)

def smallSigma1 (x : Nat) : Nat := rotr32 x 17 ^^^ rotr32 x 19 ^^^ (x >>> 10)

def shaK : List Nat :=
  [1116352408, 1899447441, 3049323471, 3921009573, 961987163,
   1508970993, 2453635748, 2870763221, 3624381080, 310598401,
   607225278, 1426881987, 1925078388, 2162078206, 2614888103,
   3248222580, 3835390401, 4022224774, 264347078, 604807628,
   770255983, 1249150122, 1555081692, 1996064986, 2554220882,
   2821834349, 2952996808, 3210313671, 3336571891, 3584528711,
   113926993, 338241895, 666307205, 773529912, 1294757372,
   1396182291, 1695183700, 1986661051, 2177026350, 2456956037,
   2730485921, 2820302411, 3259730800, 3345764771, 3516065817,
   3600352804, 4094571909, 275423344, 430227734, 506948616,
   659060556, 883997877, 958139571, 1322822218, 1537002063,
   1747873779, 1955562222, 2024104815, 2227730452, 2361852424,
   2428436474, 2756734187, 3204031479, 3329325298]

def shaH0 : List Nat :=
  [1779033703, 3144134277, 1013904242, 2773480762, 1359893119,
   2600822924, 528734635, 1541459225]

def be64 (n : Nat) : List Nat := (List.range 8).map (fun i => (n >>> (56 - 8 * i)) % 256)

def padMessage (msg : List Nat) : List Nat :=
  msg ++ 0x80 :: List.replicate ((119 - msg.length % 64) % 64) 0 ++ be64 (8 * msg.length)

def toWords : List Nat → List Nat
  | b0 :: b1 :: b2 :: b3 :: rest => (((b0 * 256 + b1) * 256 + b2) * 256 + b3) :: toWords rest
  | _ => []

def toBlocks : List Nat → List (List Nat)
  | w0 :: w1 :: w2 :: w3 :: w4 :: w5 :: w6 :: w7 ::
    w8 :: w9 :: w10 :: w11 :: w12 :: w13 :: w14 :: w15 :: rest =>
      [w0, w1, w2, w3, w4, w5, w6, w7, w8, w9, w10, w11, w12, w13, w14, w15] :: toBlocks rest
  | _ => []

def schedule (block : List Nat) : List Nat :=
  (List.range 48).foldl
    (fun ws _ =>
      let n := ws.length
      ws ++ [(smallSigma1 (ws.getD (n - 2) 0) + ws.getD (n - 7) 0 +
              smallSigma0 (ws.getD (n - 15) 0) + ws.getD (n - 16) 0) % M32])
    block

def compress (h : List Nat) (block : List Nat) : List Nat :=
  let ws := schedule block
  let st := (shaK.zip ws).foldl
    (fun st kw =>
      match st, kw with
      | (a, b, c, d, e, f, g, hh), (k, w) =>
        let t1 := (hh + bigSigma1 e + shaCh e f g + k + w) % M32
        let t2 := (bigSigma0 a + shaMaj a b c) % M32
        ((t1 + t2) % M32, a, b, c, (d + t1) % M32, e, f, g))
    (h.getD 0 0, h.getD 1 0, h.getD 2 0, h.getD 3 0,
     h.getD 4 0, h.getD 5 0, h.getD 6 0, h.getD 7 0)
  match st with
  | (a, b, c, d, e, f, g, hh) =>
    [(h.getD 0 0 + a) % M32, (h.getD 1 0 + b) % M32, (h.getD 2 0 + c) % M32,
     (h.getD 3 0 + d) % M32, (h.getD 4 0 + e) % M32, (h.getD 5 0 + f) % M32,
     (h.getD 6 0 + g) % M32, (h.getD 7 0 + hh) % M32]

def sha256Words (msg : List Nat) : List Nat :=
  (toBlocks (toWords (padMessage msg))).foldl compress shaH0

def hexWord (w : Nat) : List Char :=
  (List.range 8).map (fun i => Nat.digitChar ((w >>> (28 - 4 * i)) % 16))

/-- First 8 hex characters of `sha256(value)`: `hex.EncodeToString(hash[:])[:8]`. -/
def sha256Hex8 (s : String) : String :=
  ⟨hexWord ((sha256Words (utf8Bytes s)).getD 0 0)⟩

/-! ## The Tokenization Engine (`internal/tokenizer/tokenizer.go`)

The Go `Tokenizer` holds `tokenMap` (original → token), `reverseMap`
(token → original) and per-type counters.  Go maps are embedded as
association lists where an update conses the new binding in front and lookup
returns the most recent binding.  `TokenType` is a string type in the source;
the configuration (`sensitiveFields`, `patterns`) is immutable and is passed
to `detectTokenType` explicitly. -/

abbrev TokenType := String

def TokenTypeName : TokenType := "NAME"

def TokenTypeDate : TokenType := "DATE"

def TokenTypeNumber : TokenType := "NUM"

def TokenTypeID : TokenType := "ID"

def TokenTypeAddress : TokenType := "ADDR"

def TokenTypePhone : TokenType := "PHONE"

def TokenTypeEmail : TokenType := "EMAIL"

def TokenTypeDiagnosis : TokenType := "DIAG"

def TokenTypeDrug : TokenType := "DRUG"

def lookupA {α : Type} : List (String × α) → String → Option α
  | [], _ => none
  | (k, v) :: t, key => if k = key then some v else lookupA t key

structure Tokenizer where
  enabled : Bool
  tokenMap : List (String × String)
  reverseMap : List (String × String)
  counters : List (TokenType × Nat)

/-- `New(cfg)`: fresh maps and counters, enabled flag from the config. -/
def newTokenizer (enabled : Bool) : Tokenizer := ⟨enabled, [], [], []⟩

def counterOf (st : Tokenizer) (ty : TokenType) : Nat := (lookupA st.counters ty).getD 0

/-- `(*Tokenizer).Tokenize`: identity when disabled or empty; otherwise the
stored token on a hit, else mint `TYPE_%03d` from the bumped counter and
record both directions. -/
def Tokenize (st : Tokenizer) (value : String) (tokenType : TokenType) :
    String × Tokenizer :=
  if !st.enabled || value == "" then (value, st)
  else
    match lookupA st.tokenMap value with
    | some token => (token, st)
    | none =>
      let c := counterOf st tokenType + 1
      let token := mkToken tokenType c
      (token,
       { st with
         tokenMap := (value, token) :: st.tokenMap,
         reverseMap := (token, value) :: st.reverseMap,
         counters := (tokenType, c) :: st.counters })

/-- The token `TokenizeWithHash` mints: `TYPE_` + first 8 hex chars of sha256. -/
def hashToken (tokenType : TokenType) (value : String) : String :=
  tokenType ++ "_" ++ sha256Hex8 value

/-- `(*Tokenizer).TokenizeWithHash`: like `Tokenize` but the minted token uses
the truncated sha256 of the value instead of a counter. -/
def TokenizeWithHash (st : Tokenizer) (value : String) (tokenType : TokenType) :
    String × Tokenizer :=
  if !st.enabled || value == "" then (value, st)
  else
    match lookupA st.tokenMap value with
    | some token => (token, st)
    | none =>
      let token := hashToken tokenType value
      (token,
       { st with
         tokenMap := (value, token) :: st.tokenMap,
         reverseMap := (token, value) :: st.reverseMap })

/-- `(*Tokenizer).Detokenize`: identity when disabled, empty, or unknown. -/
def Detokenize (st : Tokenizer) (token : String) : String :=
  if !st.enabled || token == "" then token
  else (lookupA st.reverseMap token).getD token

/-- `(*Tokenizer).SetEnabled`. -/
def SetEnabled (st : Tokenizer) (b : Bool) : Tokenizer := { st with enabled := b }

/-- A tokenizer call: the operations a client may issue during a run. -/
inductive TokOp where
  | tok (value : String) (ty : TokenType)
  | tokHash (value : String) (ty : TokenType)
  | setEnabled (b : Bool)

def applyOp (st : Tokenizer) : TokOp → Tokenizer
  | .tok v ty => (Tokenize st v ty).2
  | .tokHash v ty => (TokenizeWithHash st v ty).2
  | .setEnabled b => SetEnabled st b

def applyOps (st : Tokenizer) : List TokOp → Tokenizer
  | [] => st
  | op :: ops => applyOps (applyOp st op) ops

/-- An op is counter-based if it is `Tokenize` or `SetEnabled` (no hashing):
the reachable states of claim C5. -/
def TokOp.noHash : TokOp → Bool
  | .tokHash _ _ => false
  | _ => true

/-! ## `detectTokenType` and its content patterns

The three compiled patterns are
`DATE = \d{4}-\d{2}-\d{2}|\d{2}\.\d{2}\.\d{4}`,
`EMAIL = [a-zA-Z0-9._%+-]+@[a-zA-Z0-9.-]+\.[a-zA-Z]{2,}`,
`PHONE = \+?\d{1,3}[-.\s]?\(?\d{1,4}\)?[-.\s]?\d{1,4}[-.\s]?\d{1,9}`,
used with `MatchString` (does a match occur anywhere).  Each is embedded as a
decidable scanner for the existence of a match.  Go iterates the `patterns`
map in unspecified order, so the classifier takes the pattern list as an
argument and the theorems quantify over it. -/

def dateAt : List Char → Bool
  | a :: b :: c :: d :: '-' :: e :: f :: '-' :: g :: h :: _ =>
    isDigitCh a && isDigitCh b && isDigitCh c && isDigitCh d &&
    isDigitCh e && isDigitCh f && isDigitCh g && isDigitCh h
  | _ => false

def dotDateAt : List Char → Bool
  | a :: b :: '.' :: c :: d :: '.' :: e :: f :: g :: h :: _ =>
    isDigitCh a && isDigitCh b && isDigitCh c && isDigitCh d &&
    isDigitCh e && isDigitCh f && isDigitCh g && isDigitCh h
  | _ => false

def dateScan : List Char → Bool
  | [] => false
  | c :: t => dateAt (c :: t) || dotDateAt (c :: t) || dateScan t

def dateMatch (s : String) : Bool := dateScan s.data

def isAlphaCh (c : Char) : Bool :=
  (decide ('a' ≤ c) && decide (c ≤ 'z')) || (decide ('A' ≤ c) && decide (c ≤ 'Z'))

def isLocalCh (c : Char) : Bool :=
  isAlphaCh c || isDigitCh c || c == '.' || c == '_' || c == '%' || c == '+' || c == '-'

def isDomainCh (c : Char) : Bool := isAlphaCh c || isDigitCh c || c == '.' || c == '-'

/-- After the `@`: a nonempty domain-char run, then `.` and two letters. -/
def emailDomain : List Char → Bool → Bool
  | [], _ => false
  | c :: rest, seen =>
    if seen && c == '.' &&
       (match rest with | a :: b :: _ => isAlphaCh a && isAlphaCh b | _ => false) then
      true
    else if isDomainCh c then emailDomain rest true
    else false

def emailScan : Option Char → List Char → Bool
  | _, [] => false
  | prev, c :: rest =>
    (c == '@' && (match prev with | some p => isLocalCh p | none => false) &&
     emailDomain rest false) ||
    emailScan (some c) rest

def emailMatch (s : String) : Bool := emailScan none s.data

/-- All remainders after consuming an optional character accepted by `p`. -/
def optCh (p : Char → Bool) (l : List Char) : List (List Char) :=
  l :: (match l with
        | c :: rest => if p c then [rest] else []
        | [] => [])

/-- All remainders after consuming between `lo` and `hi` digits. -/
def digitsRange (lo hi : Nat) (l : List Char) : List (List Char) :=
  match hi, l with
  | 0, _ => if lo = 0 then [l] else []
  | _ + 1, [] => if lo = 0 then [l] else []
  | hi + 1, c :: rest =>
    if isDigitCh c then
      (if lo = 0 then [l] else []) ++ digitsRange (lo - 1) hi rest
    else if lo = 0 then [l] else []

def isSepCh (c : Char) : Bool :=
  c == '-' || c == '.' || c == ' ' || c == '\t' || c == '\n' ||
  c == Char.ofNat 12 || c == '\r'

/-- Can the phone pattern match starting exactly here? -/
def phoneAt (l : List Char) : Bool :=
  let step (ls : List (List Char)) (f : List Char → List (List Char)) := ls.flatMap f
  let r := step (step (step (step (step (step (step (step (step (step [l]
    (optCh (· == '+'))) (digitsRange 1 3)) (optCh isSepCh)) (optCh (· == '(')))
    (digitsRange 1 4)) (optCh (· == ')'))) (optCh isSepCh)) (digitsRange 1 4))
    (optCh isSepCh)) (digitsRange 1 9)
  !r.isEmpty

def phoneScan : List Char → Bool
  | [] => false
  | c :: t => phoneAt (c :: t) || phoneScan t

def phoneMatch (s : String) : Bool := phoneScan s.data

/-- The `patterns` map built by `New`, in declaration order. -/
def tokenizerPatterns : List (TokenType × (String → Bool)) :=
  [(TokenTypeDate, dateMatch), (TokenTypeEmail, emailMatch), (TokenTypePhone, phoneMatch)]

/-- The `SensitiveFields` of `DefaultConfig()`. -/
def defaultSensitiveFields : List String :=
  ["name", "full_name", "first_name", "last_name", "middle_name",
   "phone", "email", "address", "birth_date", "birthdate",
   "salary", "income", "account", "card_number",
   "diagnosis", "disease", "drug", "medication", "prescription"]

/-- The `switch`-on-field-name cases of `detectTokenType`, in source order;
`none` is the `default` branch. -/
def fieldNameSwitch (fieldLower : String) : Option TokenType :=
  if goContains fieldLower "name" || goContains fieldLower "fio" then some TokenTypeName
  else if goContains fieldLower "date" || goContains fieldLower "birth" then some TokenTypeDate
  else if goContains fieldLower "phone" || goContains fieldLower "tel" then some TokenTypePhone
  else if goContains fieldLower "email" || goContains fieldLower "mail" then some TokenTypeEmail
  else if goContains fieldLower "address" || goContains fieldLower "addr" then
    some TokenTypeAddress
  else if goContains fieldLower "salary" || goContains fieldLower "income" ||
          goContains fieldLower "amount" then some TokenTypeNumber
  else if goContains fieldLower "id" then some TokenTypeID
  else if goContains fieldLower "diagnosis" || goContains fieldLower "disease" then
    some TokenTypeDiagnosis
  else if goContains fieldLower "drug" || goContains fieldLower "medication" ||
          goContains fieldLower "prescription" then some TokenTypeDrug
  else none

/-- `(*Tokenizer).detectTokenType`.  `patterns` is the iteration order of the
pattern map (unspecified in Go); `sensitiveFields` the configured list.  The
`default:` branch of the switch sniffs the value against the patterns and
falls back to `TokenTypeName` (`// по умолчанию`). -/
def detectTokenType (patterns : List (TokenType × (String → Bool)))
    (sensitiveFields : List String) (fieldName value : String) : TokenType :=
  let fieldLower := goToLower fieldName
  let isSensitive := sensitiveFields.any (fun sf => goContains fieldLower (goToLower sf))
  if !isSensitive then ""
  else
    match fieldNameSwitch fieldLower with
    | some t => t
    | none =>
      match patterns.find? (fun p => p.2 value) with
      | some p => p.1
      | none => TokenTypeName

/-! ## JSON and the Response Interpreter (`GenerateContent`, non-streaming)

`encoding/json` is embedded as a fueled recursive-descent parser for the JSON
grammar; `json.Unmarshal` into the anonymous struct
`{Name string; Arguments map[string]any}` succeeds exactly on a top-level
object (or `null`), with `name` a string and `arguments` an object, matching
field names ASCII-case-insensitively with the last occurrence winning. -/

inductive JVal where
  | jnull
  | jbool (b : Bool)
  | jnum (text : String)
  | jstr (s : String)
  | jarr (xs : List JVal)
  | jobj (fields : List (String × JVal))

def skipWs (l : List Char) : List Char :=
  l.dropWhile (fun c => c == ' ' || c == '\t' || c == '\n' || c == '\r')

def hexVal (c : Char) : Option Nat :=
  if isDigitCh c then some (c.toNat - 48)
  else if decide ('a' ≤ c) && decide (c ≤ 'f') then some (c.toNat - 87)
  else if decide ('A' ≤ c) && decide (c ≤ 'F') then some (c.toNat - 55)
  else none

/-- Body of a JSON string after the opening quote: content and remainder. -/
def parseStrBody : List Char → Option (List Char × List Char)
  | [] => none
  | '"' :: rest => some ([], rest)
  | '\\' :: 'u' :: h1 :: h2 :: h3 :: h4 :: rest => do
    let a ← hexVal h1
    let b ← hexVal h2
    let c ← hexVal h3
    let d ← hexVal h4
    let (cs, r) ← parseStrBody rest
    some (Char.ofNat (((a * 16 + b) * 16 + c) * 16 + d) :: cs, r)
  | '\\' :: e :: rest => do
    let c ← match e with
      | '"' => some '"'
      | '\\' => some '\\'
      | '/' => some '/'
      | 'b' => some (Char.ofNat 8)
      | 'f' => some (Char.ofNat 12)
      | 'n' => some '\n'
      | 'r' => some '\r'
      | 't' => some '\t'
      | _ => none
    let (cs, r) ← parseStrBody rest
    some (c :: cs, r)
  | c :: rest =>
    if c.toNat < 32 then none
    else do
      let (cs, r) ← parseStrBody rest
      some (c :: cs, r)

def parseFracPart : List Char → Option (List Char × List Char)
  | '.' :: rest =>
    match rest.span isDigitCh with
    | ([], _) => none
    | (ds, r2) => some ('.' :: ds, r2)
  | l => some ([], l)

def parseExpPart : List Char → Option (List Char × List Char)
  | [] => some ([], [])
  | e :: rest =>
    if e == 'e' || e == 'E' then
      let (sgn, r2) := match rest with
        | c :: r => if c == '+' || c == '-' then ([c], r) else (([] : List Char), rest)
        | [] => ([], rest)
      match r2.span isDigitCh with
      | ([], _) => none
      | (ds, r3) => some (e :: (sgn ++ ds), r3)
    else some ([], e :: rest)

def parseNumber (l : List Char) : Option (List Char × List Char) := do
  let (sign, l1) := match l with
    | '-' :: r => (['-'], r)
    | _ => (([] : List Char), l)
  let (ip, l2) ← match l1 with
    | '0' :: r => some (['0'], r)
    | c :: r =>
      if isDigitCh c && c != '0' then
        let (ds, r2) := r.span isDigitCh
        some (c :: ds, r2)
      else none
    | [] => none
  let (fp, l3) ← parseFracPart l2
  let (ep, l4) ← parseExpPart l3
  some (sign ++ ip ++ fp ++ ep, l4)

/-- Parser mode: a single value, the items of an array, or the fields of an
object (accumulating what is already parsed). -/
inductive PMode where
  | val
  | items (acc : List JVal)
  | fields (acc : List (String × JVal))

def parseJ : Nat → PMode → List Char → Option (JVal × List Char)
  | 0, _, _ => none
  | fuel + 1, .val, l =>
    match skipWs l with
    | 'n' :: 'u' :: 'l' :: 'l' :: rest => some (.jnull, rest)
    | 't' :: 'r' :: 'u' :: 'e' :: rest => some (.jbool true, rest)
    | 'f' :: 'a' :: 'l' :: 's' :: 'e' :: rest => some (.jbool false, rest)
    | '"' :: rest => (parseStrBody rest).map (fun p => (.jstr ⟨p.1⟩, p.2))
    | '[' :: rest =>
      (match skipWs rest with
       | ']' :: r2 => some (.jarr [], r2)
       | _ =>
         match parseJ fuel (.items []) rest with
         | some (v, r) => some (v, r)
         | none => none)
    | '{' :: rest =>
      (match skipWs rest with
       | '}' :: r2 => some (.jobj [], r2)
       | _ =>
         match parseJ fuel (.fields []) rest with
         | some (v, r) => some (v, r)
         | none => none)
    | l2 => (parseNumber l2).map (fun p => (.jnum ⟨p.1⟩, p.2))
  | fuel + 1, .items acc, l => do
    let (v, r) ← parseJ fuel .val l
    match skipWs r with
    | ',' :: r2 => parseJ fuel (.items (acc ++ [v])) r2
    | ']' :: r2 => some (.jarr (acc ++ [v]), r2)
    | _ => none
  | fuel + 1, .fields acc, l =>
    match skipWs l with
    | '"' :: rest => do
      let (k, r) ← parseStrBody rest
      match skipWs r with
      | ':' :: r2 => do
        let (v, r3) ← parseJ fuel .val r2
        match skipWs r3 with
        | ',' :: r4 => parseJ fuel (.fields (acc ++ [(⟨k⟩, v)])) r4
        | '}' :: r4 => some (.jobj (acc ++ [(⟨k⟩, v)]), r4)
        | _ => none
      | _ => none
    | _ => none

/-- `json.Unmarshal` of a whole input to a JSON value (trailing data is an
error, surrounding whitespace is allowed). -/
def parseJson (s : String) : Option JVal :=
  match parseJ (s.data.length + 8) .val s.data with
  | some (v, rest) => if (skipWs rest).isEmpty then some v else none
  | none => none

/-- ASCII `strings.EqualFold`, as used for JSON field-name matching. -/
def eqFold (a b : String) : Bool := goToLower a == goToLower b

def foldFuncCallFields :
    List (String × JVal) → String → Option (List (String × JVal)) →
    Option (String × Option (List (String × JVal)))
  | [], name, args => some (name, args)
  | (k, v) :: rest, name, args =>
    if eqFold k "name" then
      match v with
      | .jstr s => foldFuncCallFields rest s args
      | .jnull => foldFuncCallFields rest name args
      | _ => none
    else if eqFold k "arguments" then
      match v with
      | .jobj o => foldFuncCallFields rest name (some o)
      | .jnull => foldFuncCallFields rest name args
      | _ => none
    else foldFuncCallFields rest name args

/-- `json.Unmarshal([]byte(s), &funcCall)` for
`struct { Name string; Arguments map[string]interface{} }`:
`some (name, arguments)` when it succeeds (`arguments = none` is a nil map),
`none` when it errors. -/
def unmarshalFuncCall (s : String) : Option (String × Option (List (String × JVal))) :=
  match parseJson s with
  | some (.jobj fields) => foldFuncCallFields fields "" none
  | some .jnull => some ("", none)
  | _ => none

/-- `json.Unmarshal([]byte(raw), &args)` for `map[string]interface{}`, with the
source's fallback `{"raw": raw}` on error; `none` is a nil map (JSON `null`). -/
def nativeArgs (raw : String) : Option (List (String × JVal)) :=
  match parseJson raw with
  | some (.jobj f) => some f
  | some .jnull => none
  | _ => some [("raw", .jstr raw)]

/-- One `genai.Part` produced by the interpreter. -/
inductive GenPart where
  | funcCall (name : String) (args : Option (List (String × JVal)))
  | text (s : String)

/-- A native structured tool call on the model reply
(`choice.Message.ToolCalls[i].Function`). -/
structure NativeToolCall where
  name : String
  arguments : String

/-- The non-streaming model reply: native tool calls and text content. -/
structure ModelReplyMsg where
  toolCalls : List NativeToolCall
  content : String

/-- The per-line loop of `GenerateContent`: trim each line, skip empties, take
the first line that unmarshals with a nonempty name, ignore the rest. -/
def firstDecodedLine : List String → Option (String × Option (List (String × JVal)))
  | [] => none
  | l :: rest =>
    let line := goTrimSpace l
    if line == "" then firstDecodedLine rest
    else
      match unmarshalFuncCall line with
      | some (n, args) => if n != "" then some (n, args) else firstDecodedLine rest
      | none => firstDecodedLine rest

/-- `strings.Split(content, "\n")` as a list of strings. -/
def linesOf (content : String) : List String :=
  (splitLines content.data).map (fun l => (⟨l⟩ : String))

/-- The Response Interpreter: the non-streaming tail of
`(*QwenModel).GenerateContent` that converts one reply into `genai.Part`s. -/
def interpretReply (r : ModelReplyMsg) : List GenPart :=
  if r.toolCalls.length > 0 then
    r.toolCalls.map (fun tc => GenPart.funcCall tc.name (nativeArgs tc.arguments))
  else if r.content != "" then
    let content := goTrimSpace r.content
    match firstDecodedLine (linesOf content) with
    | some (n, args) => [GenPart.funcCall n args]
    | none =>
      match unmarshalFuncCall content with
      | some (n, args) =>
        if n != "" then [GenPart.funcCall n args] else [GenPart.text content]
      | none => [GenPart.text content]
  else [GenPart.text ""]

/-! ## CSV Export Sink (`ExportToCSV`, `translateColumns`, `valueToString`)

`encoding/csv` with the default comma and `UseCRLF = false`: a field is quoted
when it contains a comma, quote, CR or LF, equals `\.`, or starts with a space
rune; quotes are doubled inside quoted fields; rows end in `"\n"`.
`os.Create` + `csv.NewWriter(file)` write the header first — nothing writes a
byte-order mark. -/

def fieldNeedsQuotes (f : String) : Bool :=
  if f == "" then false
  else if f == "\\." then true
  else if goContains f "," || goContains f "\"" || goContains f "\r" ||
          goContains f "\n" then true
  else
    match f.data with
    | c :: _ => isGoSpace c
    | [] => false

def csvField (f : String) : String :=
  if fieldNeedsQuotes f then
    "\"" ++ ⟨f.data.flatMap (fun c => if c = '"' then ['"', '"'] else [c])⟩ ++ "\""
  else f

def csvWriteRow (fields : List String) : String :=
  String.intercalate "," (fields.map csvField) ++ "\n"

/-- The fixed `translations` map of `translateColumns`. -/
def columnTranslations : List (String × String) :=
  [("code", "код_мкб"),
   ("icd_code", "код_мкб"),
   ("diagnosis", "название_диагноза"),
   ("name", "название_диагноза"),
   ("class", "класс_заболевания"),
   ("disease_class", "класс_заболевания"),
   ("id", "id"),
   ("patient_id", "id"),
   ("birth_date", "дата_рождения"),
   ("birthdate", "дата_рождения"),
   ("date_of_birth", "дата_рождения"),
   ("gender", "пол"),
   ("sex", "пол"),
   ("district", "район_проживания"),
   ("region", "регион"),
   ("city", "регион"),
   ("prescription_date", "дата_рецепта"),
   ("date", "дата_рецепта"),
   ("created_at", "дата_рецепта"),
   ("diagnosis_code", "код_диагноза"),
   ("drug_code", "код_препарата"),
   ("medicine_code", "код_препарата"),
   ("medication_code", "код_препарата")]

def translateColumns (columns : List String) : List String :=
  columns.map (fun col => (lookupA columnTranslations col).getD col)

/-- A scanned SQL cell as `valueToString` distinguishes it.  `bytes s` is a
`[]byte` holding the UTF-8 of `s`. -/
inductive CellVal where
  | null
  | bytes (s : String)
  | time (y mo d hh mi ss : Nat)
  | int (n : Int)
  | uint (n : Nat)
  | bool (b : Bool)
  | str (s : String)

def padZ (w n : Nat) : List Char := List.replicate (w - (natDec n).length) '0' ++ natDec n

def CellVal.valueToString : CellVal → String
  | .null => ""
  | .bytes s => s
  | .time y mo d hh mi ss =>
    let date : String := ⟨padZ 4 y⟩ ++ "-" ++ ⟨padZ 2 mo⟩ ++ "-" ++ ⟨padZ 2 d⟩
    if hh = 0 ∧ mi = 0 ∧ ss = 0 then date
    else date ++ " " ++ ⟨padZ 2 hh⟩ ++ ":" ++ ⟨padZ 2 mi⟩ ++ ":" ++ ⟨padZ 2 ss⟩
  | .int n => toString n
  | .uint n => toString n
  | .bool b => if b then "true" else "false"
  | .str s => s

/-- The bytes `ExportToCSV` writes for a result set (success path): translated
header row, then one row per result row, every cell stringified and
detokenized.  The function of the file content — the source writes no BOM. -/
def exportCSVContent (tok : Tokenizer) (columns : List String)
    (rows : List (List CellVal)) : String :=
  csvWriteRow (translateColumns columns) ++
  String.join (rows.map (fun row =>
    csvWriteRow (row.map (fun val =>
      let strVal := val.valueToString
      if tok.enabled && strVal != "" then Detokenize tok strVal else strVal))))

/-! ## The tools (`ExecuteQuery`, `GetTableSample`) -/

/-- The data-source contract: a query yields column names and rows or fails. -/
abbrev DBConn := String → Except String (List String × List (List CellVal))

structure ExecOutcome where
  result : Except String String
  queriesRun : List String
  written : Option String

/-- `ExecuteQuery` of `internal/tools`: nil-connection check, the SELECT-only
validation, then query execution and CSV export.  `queriesRun` records what
reached `QueryContext`; `written` the exported file content. -/
def ExecuteQuery (conn : Option DBConn) (tok : Tokenizer)
    (query outputFile : String) : ExecOutcome :=
  match conn with
  | none => ⟨.error "нет подключения к базе данных", [], none⟩
  | some db =>
    let upperQuery := goToUpper (goTrimSpace query)
    if !goStartsWith upperQuery "SELECT" then
      ⟨.error "разрешены только SELECT запросы", [], none⟩
    else if goContains upperQuery "DROP" || goContains upperQuery "DELETE" ||
            goContains upperQuery "UPDATE" || goContains upperQuery "INSERT" then
      ⟨.error "запрещены модифицирующие операции", [], none⟩
    else
      match db query with
      | .error e => ⟨.error ("ошибка выполнения запроса: " ++ e), [query], none⟩
      | .ok (columns, rows) =>
        ⟨.ok ("Запрос выполнен успешно. Экспортировано " ++ toString rows.length ++
              " строк в файл " ++ outputFile),
         [query], some (exportCSVContent tok columns rows)⟩

/-- The sample text `GetTableSample` builds (success path) from the column
names and the `%v`-rendered scanned values.  The source formats the raw
values directly — it never calls the tokenizer, so no tokenizer state
appears here. -/
def renderSample (tableName : String) (columns : List String)
    (rows : List (List String)) : String :=
  "Первые 10 строк из таблицы " ++ tableName ++ ":\n\n" ++
  "Колонки: " ++ String.intercalate ", " columns ++ "\n\n" ++
  String.join (rows.enum.map (fun p =>
    "Строка " ++ toString (p.1 + 1) ++ ": " ++
    String.intercalate ", " ((columns.zip p.2).map (fun q => q.1 ++ "=" ++ q.2)) ++ "\n"))

/-! ## The runner's event loop and Loop Guard (`internal/agent/runner.go`)

The event callback: an error event stops the run; a nil event is skipped; each
non-nil part with a `FunctionCall` bumps `callCount[name]` and stops the run
as soon as a count exceeds `maxCallsPerFunction`; a final response completes
the run. -/

structure EvPart where
  text : String
  functionCall : Option String
  functionResponse : Option String

inductive AgentEvent where
  | err
  | nilEv
  | ev (content : Option (List (Option EvPart))) (isFinal : Bool)

abbrev CallCounts := List (String × Nat)

def bump (cc : CallCounts) (name : String) : CallCounts :=
  (name, (lookupA cc name).getD 0 + 1) :: cc

def processParts (maxCalls : Nat) : List (Option EvPart) → CallCounts → CallCounts × Bool
  | [], cc => (cc, false)
  | none :: rest, cc => processParts maxCalls rest cc
  | some p :: rest, cc =>
    match p.functionCall with
    | some funcName =>
      let cc2 := bump cc funcName
      if (lookupA cc2 funcName).getD 0 > maxCalls then (cc2, true)
      else processParts maxCalls rest cc2
    | none => processParts maxCalls rest cc

inductive RunOutcome where
  | loopAborted
  | errorAborted
  | completed
  | exhausted
  deriving DecidableEq

def runEvents (maxCalls : Nat) : List AgentEvent → CallCounts → RunOutcome
  | [], _ => .exhausted
  | .err :: _, _ => .errorAborted
  | .nilEv :: rest, cc => runEvents maxCalls rest cc
  | .ev content isFinal :: rest, cc =>
    let r := match content with
      | some ps => processParts maxCalls ps cc
      | none => (cc, false)
    if r.2 then .loopAborted
    else if isFinal then .completed
    else runEvents maxCalls rest r.1

/-- The function-call names one parts list carries, in order. -/
def partCallNames (ps : List (Option EvPart)) : List String :=
  ps.filterMap (fun p => p.bind (fun q => q.functionCall))

/-- The function-call names an event stream carries, in order. -/
def eventCallNames (evs : List AgentEvent) : List String :=
  evs.flatMap (fun e =>
    match e with
    | .ev (some ps) _ => partCallNames ps
    | _ => [])

/-- The current count of a tool name. -/
def getCount (cc : CallCounts) (x : String) : Nat := (lookupA cc x).getD 0

/-- An event that is neither a transport error nor a final response. -/
def AgentEvent.isPlain : AgentEvent → Bool
  | .err => false
  | .nilEv => true
  | .ev _ isFinal => !isFinal

/-- Streams with no transport error and no final response: the regime in which
the Loop Guard alone decides termination. -/
def plainStream (evs : List AgentEvent) : Prop :=
  ∀ e ∈ evs, e.isPlain = true

/-! ## Stated properties and concrete instances used by the theorems -/

/-- Forward direction of the map invariant: every `tokenMap` binding is
mirrored in `reverseMap`. -/
def TokFwd (st : Tokenizer) : Prop :=
  ∀ v tok, lookupA st.tokenMap v = some tok → lookupA st.reverseMap tok = some v

/-- Reverse direction: every `reverseMap` binding is mirrored in `tokenMap`. -/
def TokRev (st : Tokenizer) : Prop :=
  ∀ tok v, lookupA st.reverseMap tok = some v → lookupA st.tokenMap v = some tok

/-- The forward and reverse maps are mutual inverses. -/
def MutualInv (st : Tokenizer) : Prop := TokFwd st ∧ TokRev st

/-- In a counter-only state every recorded token is `TYPE_%03d` with a counter
value between 1 and the current counter of its type. -/
def TokenShapes (st : Tokenizer) : Prop :=
  ∀ tok v, lookupA st.reverseMap tok = some v →
    ∃ ty c, tok = mkToken ty c ∧ 1 ≤ c ∧ c ≤ counterOf st ty

def CounterInv (st : Tokenizer) : Prop := MutualInv st ∧ TokenShapes st

/-- Field-name sensitivity under `DefaultConfig()`. -/
def isSensitiveField (fieldName : String) : Bool :=
  defaultSensitiveFields.any (fun sf => goContains (goToLower fieldName) (goToLower sf))

/-- The whole-content fallback decode finds no tool call in `s`. -/
def noCallWhole (s : String) : Prop :=
  match unmarshalFuncCall s with
  | some (n, _) => n = ""
  | none => True

/-- The UTF-8 byte-order mark, as a string (U+FEFF) and as its three bytes. -/
def bomStr : String := ⟨[Char.ofNat 0xFEFF]⟩

def bomBytes : List Nat := [0xEF, 0xBB, 0xBF]

/-- A stub data source: one empty result set for any query. -/
def dbStub : DBConn := fun _ => .ok (["id"], [])

/-- The dangerous query of claim C3: SELECT-prefixed but containing `CREATE`. -/
def createQuery : String := "SELECT * FROM x; CREATE TABLE y (z INT)"

/-- The two distinct values whose sha256 hex digests share their first 8
characters (`cdffd75c`): the hash-token collision of claim C7. -/
def collA : String := "v58213"

def collB : String := "v67279"

/-- The state after hashing both colliding values in a fresh enabled
tokenizer. -/
def collState : Tokenizer :=
  applyOps (newTokenizer true) [.tokHash collA "NAME", .tokHash collB "NAME"]

/-- An event carrying one interpreted invocation of `name`. -/
def callEvent (name : String) : AgentEvent :=
  .ev (some [some ⟨"", some name, none⟩]) false

/-- Two consecutive JSON tool-call lines, as free text:
`{"name": "A", "arguments": {}}` then the same for `B`. -/
def twoJsonLines : String :=
  "\x7b\"name\": \"A\", \"arguments\": \x7b\x7d\x7d\n\x7b\"name\": \"B\", \"arguments\": \x7b\x7d\x7d"

/-- The model reply of claim C2's counterexample: two native tool calls. -/
def twoNativeCalls : ModelReplyMsg :=
  ⟨[⟨"GetDatabaseSchema", "\x7b\x7d"⟩,
    ⟨"GetTableSample", "\x7b\"table_name\": \"patients\"\x7d"⟩], ""⟩

/-! ## Lemmas: decimal digits and token injectivity -/

theorem digitChar_toNat (n : Nat) (h : n < 10) : (Nat.digitChar n).toNat = 48 + n := by
  interval_cases n <;> rfl

theorem digitChar_isDigit (n : Nat) (h : n < 10) : isDigitCh (Nat.digitChar n) = true := by
  interval_cases n <;> rfl

theorem natDecAux_val (fuel : Nat) : ∀ n : Nat, n < fuel → digitsVal (natDecAux fuel n) = n := by
  induction fuel with
  | zero => intro n h; omega
  | succ fuel ih =>
    intro n h
    by_cases h10 : n < 10
    · simp only [natDecAux, if_pos h10, digitsVal, List.foldl]
      rw [digitChar_toNat n h10]; omega
    · have hdiv : n / 10 < fuel := by
        have h1 : n / 10 < n := Nat.div_lt_self (by omega) (by omega)
        omega
      simp only [natDecAux, if_neg h10, digitsVal, List.foldl_append, List.foldl]
      have hv := ih (n / 10) hdiv
      simp only [digitsVal] at hv
      rw [hv, digitChar_toNat (n % 10) (Nat.mod_lt n (by omega))]
      omega

theorem digitsVal_natDec (n : Nat) : digitsVal (natDec n) = n :=
  natDecAux_val (n + 1) n (Nat.lt_succ_self n)

theorem digitsVal_zeros_append (k : Nat) (l : List Char) :
    digitsVal (List.replicate k '0' ++ l) = digitsVal l := by
  induction k with
  | zero => simp
  | succ k ih => simpa [digitsVal, List.replicate] using ih

theorem pad3_val (n : Nat) : digitsVal (pad3 n) = n := by
  rw [pad3, digitsVal_zeros_append, digitsVal_natDec]

theorem pad3_inj {a b : Nat} (h : pad3 a = pad3 b) : a = b := by
  have := congrArg digitsVal h
  rwa [pad3_val, pad3_val] at this

theorem natDecAux_digits (fuel : Nat) :
    ∀ n : Nat, n < fuel → ∀ c ∈ natDecAux fuel n, isDigitCh c = true := by
  induction fuel with
  | zero => intro n h; omega
  | succ fuel ih =>
    intro n h c hc
    by_cases h10 : n < 10
    · simp only [natDecAux, if_pos h10, List.mem_singleton] at hc
      subst hc; exact digitChar_isDigit n h10
    · have hdiv : n / 10 < fuel := by
        have h1 : n / 10 < n := Nat.div_lt_self (by omega) (by omega)
        omega
      simp only [natDecAux, if_neg h10, List.mem_append, List.mem_singleton] at hc
      rcases hc with hc | hc
      · exact ih (n / 10) hdiv c hc
      · subst hc; exact digitChar_isDigit (n % 10) (Nat.mod_lt n (by omega))

theorem pad3_digits (n : Nat) : ∀ c ∈ pad3 n, isDigitCh c = true := by
  intro c hc
  rw [pad3, List.mem_append] at hc
  rcases hc with hc | hc
  · rw [List.eq_of_mem_replicate hc]; rfl
  · exact natDecAux_digits (n + 1) n (Nat.lt_succ_self n) c hc

theorem digit_sep_rev :
    ∀ r1 r2 u1 u2 : List Char, (∀ c ∈ r1, isDigitCh c = true) →
      (∀ c ∈ r2, isDigitCh c = true) →
      r1 ++ '_' :: u1 = r2 ++ '_' :: u2 → r1 = r2 ∧ u1 = u2 := by
  intro r1
  induction r1 with
  | nil =>
    intro r2 u1 u2 _ hd2 heq
    cases r2 with
    | nil => simpa using heq
    | cons c r2' =>
      simp only [List.nil_append, List.cons_append, List.cons.injEq] at heq
      have : isDigitCh '_' = true := heq.1 ▸ hd2 c (List.mem_cons_self c r2')
      simp [isDigitCh] at this
  | cons a r1' ih =>
    intro r2 u1 u2 hd1 hd2 heq
    cases r2 with
    | nil =>
      simp only [List.cons_append, List.nil_append, List.cons.injEq] at heq
      have : isDigitCh '_' = true := heq.1.symm ▸ hd1 a (List.mem_cons_self a r1')
      simp [isDigitCh] at this
    | cons c r2' =>
      simp only [List.cons_append, List.cons.injEq] at heq
      obtain ⟨h1, h2⟩ := ih r2' u1 u2 (fun x hx => hd1 x (List.mem_cons_of_mem a hx))
        (fun x hx => hd2 x (List.mem_cons_of_mem c hx)) heq.2
      exact ⟨by rw [heq.1, h1], h2⟩

theorem string_mk_inj {l1 l2 : List Char} (h : (⟨l1⟩ : String) = ⟨l2⟩) : l1 = l2 := by
  injection h

theorem mkToken_data (ty : String) (c : Nat) :
    (mkToken ty c).data = ty.data ++ '_' :: pad3 c := by
  simp [mkToken, pad3Str, String.data_append]

theorem mkToken_inj {t1 t2 : String} {c1 c2 : Nat} (h : mkToken t1 c1 = mkToken t2 c2) :
    t1 = t2 ∧ c1 = c2 := by
  have hd := congrArg String.data h
  rw [mkToken_data, mkToken_data] at hd
  have hrev := congrArg List.reverse hd
  simp only [List.reverse_append, List.reverse_cons] at hrev
  have hform : ∀ (t : String) (c : Nat),
      (pad3 c).reverse ++ ['_'] ++ t.data.reverse =
        (pad3 c).reverse ++ '_' :: t.data.reverse := by
    intro t c; simp
  rw [hform t1 c1, hform t2 c2] at hrev
  obtain ⟨hp, ht⟩ := digit_sep_rev _ _ _ _
    (fun x hx => pad3_digits c1 x (List.mem_reverse.mp hx))
    (fun x hx => pad3_digits c2 x (List.mem_reverse.mp hx)) hrev
  have hpad : pad3 c1 = pad3 c2 := by
    have := congrArg List.reverse hp; simpa using this
  have hdata : t1.data = t2.data := by
    have := congrArg List.reverse ht; simpa using this
  refine ⟨?_, pad3_inj hpad⟩
  cases t1; cases t2
  exact congrArg String.mk (by simpa using hdata)

theorem mkToken_ne_empty (ty : String) (c : Nat) : mkToken ty c ≠ "" := by
  intro h
  have := congrArg String.data h
  rw [mkToken_data] at this
  simp at this

/-! ## Lemmas: tokenizer invariants -/

theorem lookupA_cons {α : Type} (k : String) (v : α) (l : List (String × α)) (x : String) :
    lookupA ((k, v) :: l) x = if k = x then some v else lookupA l x := rfl

theorem lookupA_nil {α : Type} (x : String) : lookupA ([] : List (String × α)) x = none := rfl

theorem newTokenizer_counterInv (e : Bool) : CounterInv (newTokenizer e) := by
  refine ⟨⟨?_, ?_⟩, ?_⟩ <;> intro a b h <;> simp [newTokenizer, lookupA_nil] at h

/-- A counter token one past the current counter of its type is fresh. -/
theorem shapes_fresh {st : Tokenizer} (hshape : TokenShapes st) (ty : String) :
    lookupA st.reverseMap (mkToken ty (counterOf st ty + 1)) = none := by
  cases h : lookupA st.reverseMap (mkToken ty (counterOf st ty + 1)) with
  | none => rfl
  | some v =>
    obtain ⟨ty', c, heq, h1, h2⟩ := hshape _ _ h
    obtain ⟨hty, hc⟩ := mkToken_inj heq
    subst hty; omega

theorem tokenize_stays_or_mints (st : Tokenizer) (v ty : String) :
    (Tokenize st v ty).2 = st ∨
    ((!st.enabled || v == "") = false ∧ lookupA st.tokenMap v = none ∧
     (Tokenize st v ty).2 =
       { st with
         tokenMap := (v, mkToken ty (counterOf st ty + 1)) :: st.tokenMap,
         reverseMap := (mkToken ty (counterOf st ty + 1), v) :: st.reverseMap,
         counters := (ty, counterOf st ty + 1) :: st.counters }) := by
  by_cases hguard : (!st.enabled || v == "") = true
  · left; simp [Tokenize, hguard]
  · cases hhit : lookupA st.tokenMap v with
    | some tok => left; simp [Tokenize, hguard, hhit]
    | none =>
      right
      refine ⟨by simpa using hguard, by simp [hhit], ?_⟩
      simp [Tokenize, hguard, hhit, mkToken]

/-- One `Tokenize` call preserves the full counter-state invariant, provided
the minted token is fresh — which `shapes_fresh` guarantees. -/
theorem tokenize_preserves {st : Tokenizer} (h : CounterInv st) (v ty : String) :
    CounterInv (Tokenize st v ty).2 := by
  rcases tokenize_stays_or_mints st v ty with heq | ⟨_, hhit, heq⟩
  · rwa [heq]
  · rw [heq]
    obtain ⟨⟨hfwd, hrev⟩, hshape⟩ := h
    have hfresh := shapes_fresh hshape ty
    set tok := mkToken ty (counterOf st ty + 1) with htok
    refine ⟨⟨?_, ?_⟩, ?_⟩
    · intro w tk hw
      rw [lookupA_cons] at hw ⊢
      by_cases hwv : v = w
      · rw [if_pos hwv] at hw
        obtain rfl : tok = tk := by injection hw
        rw [if_pos rfl]; rw [hwv]
      · rw [if_neg hwv] at hw
        have hold := hfwd w tk hw
        have htkne : tok ≠ tk := by
          intro hcontra; rw [← hcontra, hfresh] at hold; exact Option.noConfusion hold
        rw [if_neg htkne]; exact hold
    · intro tk w hw
      rw [lookupA_cons] at hw ⊢
      by_cases htk : tok = tk
      · rw [if_pos htk] at hw
        obtain rfl : v = w := by injection hw
        rw [if_pos rfl]; rw [htk]
      · rw [if_neg htk] at hw
        have hold := hrev tk w hw
        have hne : v ≠ w := by
          intro hcontra; rw [← hcontra, hhit] at hold; exact Option.noConfusion hold
        rw [if_neg hne]; exact hold
    · intro tk w hw
      rw [lookupA_cons] at hw
      by_cases htk : tok = tk
      · refine ⟨ty, counterOf st ty + 1, by rw [← htk], by omega, ?_⟩
        simp [counterOf, lookupA_cons]
      · rw [if_neg htk] at hw
        obtain ⟨ty', c, heq, h1, h2⟩ := hshape tk w hw
        refine ⟨ty', c, heq, h1, ?_⟩
        by_cases hty : ty = ty'
        · subst hty
          have : counterOf
              { st with
                tokenMap := (v, tok) :: st.tokenMap,
                reverseMap := (tok, v) :: st.reverseMap,
                counters := (ty, counterOf st ty + 1) :: st.counters } ty =
              counterOf st ty + 1 := by
            simp [counterOf, lookupA_cons]
          rw [this]; omega
        · have : counterOf
              { st with
                tokenMap := (v, tok) :: st.tokenMap,
                reverseMap := (tok, v) :: st.reverseMap,
                counters := (ty, counterOf st ty + 1) :: st.counters } ty' =
              counterOf st ty' := by
            simp [counterOf, lookupA_cons, hty]
          rw [this]; exact h2

theorem setEnabled_preserves {st : Tokenizer} (h : CounterInv st) (b : Bool) :
    CounterInv (SetEnabled st b) := h

theorem applyOps_preserves :
    ∀ (ops : List TokOp) (st : Tokenizer), (∀ op ∈ ops, op.noHash = true) →
      CounterInv st → CounterInv (applyOps st ops) := by
  intro ops
  induction ops with
  | nil => intro st _ h; exact h
  | cons op rest ih =>
    intro st hops h
    cases op with
    | tok v ty =>
      exact ih _ (fun o ho => hops o (List.mem_cons_of_mem _ ho)) (tokenize_preserves h v ty)
    | tokHash v ty =>
      have := hops _ (List.mem_cons_self _ _)
      simp [TokOp.noHash] at this
    | setEnabled b =>
      exact ih _ (fun o ho => hops o (List.mem_cons_of_mem _ ho)) (setEnabled_preserves h b)

theorem enabled_of_guard_false {st : Tokenizer} {s : String}
    (h : (!st.enabled || s == "") = false) : st.enabled = true ∧ (s == "") = false := by
  simp only [Bool.or_eq_false_iff, Bool.not_eq_false'] at h
  exact h

theorem token_beq_empty_false {tok : String} (ty : String) (c : Nat)
    (h : tok = mkToken ty c) : (tok == "") = false := by
  rw [h]
  exact beq_eq_false_iff_ne.mpr (mkToken_ne_empty ty c)

/-- In every counter-invariant state, detokenizing the token `Tokenize`
returns recovers the value. -/
theorem tokenize_detokenize {st : Tokenizer} (h : CounterInv st) (s t : String) :
    Detokenize (Tokenize st s t).2 (Tokenize st s t).1 = s := by
  by_cases hguard : (!st.enabled || s == "") = true
  · simp [Tokenize, Detokenize, hguard]
  · have hguard' : (!st.enabled || s == "") = false := by simpa using hguard
    obtain ⟨hen, hsne⟩ := enabled_of_guard_false hguard'
    cases hhit : lookupA st.tokenMap s with
    | some tok =>
      have hres : Tokenize st s t = (tok, st) := by
        simp [Tokenize, hguard', hhit]
      rw [hres]
      have hrm := h.1.1 s tok hhit
      obtain ⟨ty, c, hshape, _, _⟩ := h.2 tok s hrm
      simp [Detokenize, hen, token_beq_empty_false ty c hshape, hrm]
    | none =>
      have hres : Tokenize st s t =
          (mkToken t (counterOf st t + 1),
           { st with
             tokenMap := (s, mkToken t (counterOf st t + 1)) :: st.tokenMap,
             reverseMap := (mkToken t (counterOf st t + 1), s) :: st.reverseMap,
             counters := (t, counterOf st t + 1) :: st.counters }) := by
        simp [Tokenize, hguard', hhit, mkToken]
      rw [hres]
      simp [Detokenize, hen, token_beq_empty_false t (counterOf st t + 1) rfl, lookupA_cons]

/-- C5: for all strings `s` and types `t`, in every state reachable by a
sequence of `Tokenize` calls (enabled or disabled, any initial enabled flag),
`Detokenize` of the `Tokenize` result returns `s`: counter tokens of distinct
mints never collide, so the reverse map always holds the minted value. -/
theorem C5_detokenize_tokenize (e0 : Bool) (ops : List TokOp) (s t : String)
    (hops : ∀ op ∈ ops, op.noHash = true) :
    Detokenize (Tokenize (applyOps (newTokenizer e0) ops) s t).2
      (Tokenize (applyOps (newTokenizer e0) ops) s t).1 = s :=
  tokenize_detokenize (applyOps_preserves ops _ hops (newTokenizer_counterInv e0)) s t

theorem C5_detokenize_tokenize_witness :
    Detokenize
      (Tokenize (applyOps (newTokenizer true) [.tok "Иван" "NAME", .tok "Пётр" "NAME"])
        "Иван" "NAME").2
      (Tokenize (applyOps (newTokenizer true) [.tok "Иван" "NAME", .tok "Пётр" "NAME"])
        "Иван" "NAME").1 = "Иван" :=
  C5_detokenize_tokenize true [.tok "Иван" "NAME", .tok "Пётр" "NAME"] "Иван" "NAME"
    (by decide)

/-- C10: `Tokenize` of the empty string is the empty string and leaves the
tokenizer state — maps and counters — untouched. -/
theorem C10_tokenize_empty (st : Tokenizer) (t : TokenType) (h : st.enabled = true) :
    Tokenize st "" t = ("", st) := by
  simp [Tokenize]

theorem C10_tokenize_empty_witness :
    Tokenize (newTokenizer true) "" "DATE" = ("", newTokenizer true) :=
  C10_tokenize_empty (newTokenizer true) "DATE" rfl

/-! ## Lemmas: mutual-inverse preservation with explicit freshness -/

theorem mint_maps {TM RM : List (String × String)}
    (hfwd : ∀ w tk, lookupA TM w = some tk → lookupA RM tk = some w)
    (hrev : ∀ tk w, lookupA RM tk = some w → lookupA TM w = some tk)
    {v tok : String} (hhit : lookupA TM v = none) (hfresh : lookupA RM tok = none) :
    (∀ w tk, lookupA ((v, tok) :: TM) w = some tk → lookupA ((tok, v) :: RM) tk = some w) ∧
    (∀ tk w, lookupA ((tok, v) :: RM) tk = some w → lookupA ((v, tok) :: TM) w = some tk) := by
  constructor
  · intro w tk hw
    rw [lookupA_cons] at hw ⊢
    by_cases hwv : v = w
    · rw [if_pos hwv] at hw
      obtain rfl : tok = tk := by injection hw
      rw [if_pos rfl, hwv]
    · rw [if_neg hwv] at hw
      have hold := hfwd w tk hw
      have htkne : tok ≠ tk := by
        intro hcontra; rw [← hcontra, hfresh] at hold; exact Option.noConfusion hold
      rw [if_neg htkne]; exact hold
  · intro tk w hw
    rw [lookupA_cons] at hw ⊢
    by_cases htk : tok = tk
    · rw [if_pos htk] at hw
      obtain rfl : v = w := by injection hw
      rw [if_pos rfl, htk]
    · rw [if_neg htk] at hw
      have hold := hrev tk w hw
      have hne : v ≠ w := by
        intro hcontra; rw [← hcontra, hhit] at hold; exact Option.noConfusion hold
      rw [if_neg hne]; exact hold

theorem tokenizeWithHash_stays_or_mints (st : Tokenizer) (v ty : String) :
    (TokenizeWithHash st v ty).2 = st ∨
    (lookupA st.tokenMap v = none ∧
     (TokenizeWithHash st v ty).2 =
       { st with
         tokenMap := (v, hashToken ty v) :: st.tokenMap,
         reverseMap := (hashToken ty v, v) :: st.reverseMap }) := by
  by_cases hguard : (!st.enabled || v == "") = true
  · left; simp [TokenizeWithHash, hguard]
  · cases hhit : lookupA st.tokenMap v with
    | some tok => left; simp [TokenizeWithHash, hguard, hhit]
    | none =>
      right
      refine ⟨by simp [hhit], ?_⟩
      simp [TokenizeWithHash, hguard, hhit, hashToken]

/-- C7 amended: every `Tokenize` and every `TokenizeWithHash` call preserves
the mutual-inverse invariant of the forward and reverse maps, and never
changes the token of an already-tokenized value — provided the token the call
would mint is not already present in the reverse map.  For `Tokenize` that
freshness always holds (`shapes_fresh`); for `TokenizeWithHash` it can fail,
because two distinct values may share the first 8 hex characters of their
sha256 digests (see the counterexample). -/
theorem C7_invariant_amended (st : Tokenizer) (v ty : String) (h : MutualInv st)
    (hfreshCtr : lookupA st.reverseMap (mkToken ty (counterOf st ty + 1)) = none)
    (hfreshHash : lookupA st.reverseMap (hashToken ty v) = none) :
    MutualInv (Tokenize st v ty).2 ∧ MutualInv (TokenizeWithHash st v ty).2 ∧
    ∀ w tk, lookupA st.tokenMap w = some tk →
      lookupA (Tokenize st v ty).2.tokenMap w = some tk ∧
      lookupA (TokenizeWithHash st v ty).2.tokenMap w = some tk := by
  have htok : MutualInv (Tokenize st v ty).2 ∧
      ∀ w tk, lookupA st.tokenMap w = some tk →
        lookupA (Tokenize st v ty).2.tokenMap w = some tk := by
    rcases tokenize_stays_or_mints st v ty with heq | ⟨_, hhit, heq⟩
    · rw [heq]; exact ⟨h, fun w tk hw => hw⟩
    · rw [heq]
      obtain ⟨hf, hr⟩ := mint_maps h.1 h.2 hhit hfreshCtr
      refine ⟨⟨hf, hr⟩, ?_⟩
      intro w tk hw
      rw [lookupA_cons]
      have hne : v ≠ w := by
        intro hcontra; rw [← hcontra, hhit] at hw; exact Option.noConfusion hw
      rw [if_neg hne]; exact hw
  have hhash : MutualInv (TokenizeWithHash st v ty).2 ∧
      ∀ w tk, lookupA st.tokenMap w = some tk →
        lookupA (TokenizeWithHash st v ty).2.tokenMap w = some tk := by
    rcases tokenizeWithHash_stays_or_mints st v ty with heq | ⟨hhit, heq⟩
    · rw [heq]; exact ⟨h, fun w tk hw => hw⟩
    · rw [heq]
      obtain ⟨hf, hr⟩ := mint_maps h.1 h.2 hhit hfreshHash
      refine ⟨⟨hf, hr⟩, ?_⟩
      intro w tk hw
      rw [lookupA_cons]
      have hne : v ≠ w := by
        intro hcontra; rw [← hcontra, hhit] at hw; exact Option.noConfusion hw
      rw [if_neg hne]; exact hw
  exact ⟨htok.1, hhash.1, fun w tk hw => ⟨htok.2 w tk hw, hhash.2 w tk hw⟩⟩

theorem C7_invariant_amended_witness :
    MutualInv (Tokenize (newTokenizer true) "Иван" "NAME").2 ∧
    MutualInv (TokenizeWithHash (newTokenizer true) "Иван" "NAME").2 ∧
    ∀ w tk, lookupA (newTokenizer true).tokenMap w = some tk →
      lookupA (Tokenize (newTokenizer true) "Иван" "NAME").2.tokenMap w = some tk ∧
      lookupA (TokenizeWithHash (newTokenizer true) "Иван" "NAME").2.tokenMap w = some tk :=
  C7_invariant_amended (newTokenizer true) "Иван" "NAME"
    (newTokenizer_counterInv true).1 rfl rfl

/-- C7 counterexample: after `TokenizeWithHash "v58213"` and
`TokenizeWithHash "v67279"` (type `NAME`, fresh enabled tokenizer) the forward
and reverse maps are not mutual inverses: both values hash to `cdffd75c`, so
both map to the token `NAME_cdffd75c`, whose reverse entry holds only the
second value. -/
theorem C7_counterexample : ¬ MutualInv collState := by
  intro h
  have h1 : lookupA collState.tokenMap collA = some "NAME_cdffd75c" := by decide
  have h2 := h.1 collA "NAME_cdffd75c" h1
  have h3 : lookupA collState.reverseMap "NAME_cdffd75c" = some collB := by decide
  rw [h2] at h3
  have : collA = collB := by injection h3
  exact absurd this (by decide)

/-! ## Lemmas: the Loop Guard -/

theorem bump_getCount (cc : CallCounts) (n x : String) :
    getCount (bump cc n) x = if n = x then getCount cc n + 1 else getCount cc x := by
  simp only [bump, getCount, lookupA_cons]
  split <;> simp

theorem processParts_abort (m : Nat) :
    ∀ (ps : List (Option EvPart)) (cc : CallCounts), (∀ x, getCount cc x ≤ m) →
      ((processParts m ps cc).2 = true ↔
        ∃ x, getCount cc x + (partCallNames ps).count x > m) := by
  intro ps
  induction ps with
  | nil =>
    intro cc hle
    simp only [processParts, partCallNames, List.filterMap_nil, List.count_nil]
    constructor
    · intro h; exact absurd h (by simp)
    · rintro ⟨x, hx⟩; exact absurd (hle x) (by omega)
  | cons p rest ih =>
    intro cc hle
    cases p with
    | none =>
      simpa only [processParts, partCallNames, List.filterMap_cons, Option.bind] using
        ih cc hle
    | some q =>
      cases hfc : q.functionCall with
      | none =>
        have hnames : partCallNames (some q :: rest) = partCallNames rest := by
          simp [partCallNames, hfc]
        rw [hnames]
        have hstep : processParts m (some q :: rest) cc = processParts m rest cc := by
          simp [processParts, hfc]
        rw [hstep]
        exact ih cc hle
      | some name =>
        have hnames : partCallNames (some q :: rest) = name :: partCallNames rest := by
          simp [partCallNames, hfc]
        rw [hnames]
        have hbump := bump_getCount cc name
        by_cases hab : getCount (bump cc name) name > m
        · have hstep : (processParts m (some q :: rest) cc).2 = true := by
            simp only [processParts, hfc]
            rw [if_pos (by simpa [getCount] using hab)]
          rw [hstep]
          simp only [true_iff]
          refine ⟨name, ?_⟩
          rw [hbump name, if_pos rfl] at hab
          have hcnt : (name :: partCallNames rest).count name =
              (partCallNames rest).count name + 1 := by
            simp [List.count_cons]
          omega
        · have hstep : processParts m (some q :: rest) cc =
              processParts m rest (bump cc name) := by
            simp only [processParts, hfc]
            rw [if_neg (by simpa [getCount] using hab)]
          rw [hstep]
          have hle2 : ∀ x, getCount (bump cc name) x ≤ m := by
            intro x
            rw [hbump x]
            split
            · rw [hbump name, if_pos rfl] at hab; omega
            · exact hle x
          rw [ih (bump cc name) hle2]
          constructor
          · rintro ⟨x, hx⟩
            refine ⟨x, ?_⟩
            rw [hbump x] at hx
            by_cases hxn : name = x
            · subst hxn
              simp only [List.count_cons, beq_self_eq_true, if_pos rfl] at hx ⊢
              simp at hx ⊢
              omega
            · rw [if_neg hxn] at hx
              have : (name :: partCallNames rest).count x = (partCallNames rest).count x := by
                simp [List.count_cons, hxn]
              omega
          · rintro ⟨x, hx⟩
            refine ⟨x, ?_⟩
            rw [hbump x]
            by_cases hxn : name = x
            · subst hxn
              rw [if_pos rfl]
              simp only [List.count_cons, beq_self_eq_true, if_pos rfl] at hx
              simp at hx
              omega
            · rw [if_neg hxn]
              have : (name :: partCallNames rest).count x = (partCallNames rest).count x := by
                simp [List.count_cons, hxn]
              omega

theorem processParts_final (m : Nat) :
    ∀ (ps : List (Option EvPart)) (cc : CallCounts), (processParts m ps cc).2 = false →
      ∀ x, getCount (processParts m ps cc).1 x =
        getCount cc x + (partCallNames ps).count x := by
  intro ps
  induction ps with
  | nil => intro cc _ x; simp [processParts, partCallNames]
  | cons p rest ih =>
    intro cc hnoab x
    cases p with
    | none =>
      have hstep : processParts m (none :: rest) cc = processParts m rest cc := rfl
      rw [hstep] at hnoab ⊢
      simpa [partCallNames] using ih cc hnoab x
    | some q =>
      cases hfc : q.functionCall with
      | none =>
        have hstep : processParts m (some q :: rest) cc = processParts m rest cc := by
          simp [processParts, hfc]
        rw [hstep] at hnoab ⊢
        have hnames : partCallNames (some q :: rest) = partCallNames rest := by
          simp [partCallNames, hfc]
        rw [hnames]
        exact ih cc hnoab x
      | some name =>
        have hnames : partCallNames (some q :: rest) = name :: partCallNames rest := by
          simp [partCallNames, hfc]
        by_cases hab : getCount (bump cc name) name > m
        · have hstep : (processParts m (some q :: rest) cc).2 = true := by
            simp only [processParts, hfc]
            rw [if_pos (by simpa [getCount] using hab)]
          rw [hstep] at hnoab; exact absurd hnoab (by simp)
        · have hstep : processParts m (some q :: rest) cc =
              processParts m rest (bump cc name) := by
            simp only [processParts, hfc]
            rw [if_neg (by simpa [getCount] using hab)]
          rw [hstep] at hnoab ⊢
          rw [hnames, ih (bump cc name) hnoab x, bump_getCount cc name x]
          by_cases hxn : name = x
          · subst hxn
            simp [List.count_cons]
            omega
          · rw [if_neg hxn]
            have : (name :: partCallNames rest).count x = (partCallNames rest).count x := by
              simp [List.count_cons, hxn]
            omega

theorem runEvents_loop (m : Nat) :
    ∀ (evs : List AgentEvent) (cc : CallCounts), plainStream evs →
      (∀ x, getCount cc x ≤ m) →
      (runEvents m evs cc = .loopAborted ↔
        ∃ x, getCount cc x + (eventCallNames evs).count x > m) := by
  intro evs
  induction evs with
  | nil =>
    intro cc _ hle
    simp only [runEvents, eventCallNames, List.flatMap_nil, List.count_nil]
    constructor
    · intro h; exact absurd h (by simp)
    · rintro ⟨x, hx⟩; exact absurd (hle x) (by omega)
  | cons e rest ih =>
    intro cc hplain hle
    have hplainrest : plainStream rest := fun x hx => hplain x (List.mem_cons_of_mem e hx)
    cases e with
    | err =>
      have := hplain .err (List.mem_cons_self _ _)
      simp [AgentEvent.isPlain] at this
    | nilEv =>
      have hnames : eventCallNames (.nilEv :: rest) = eventCallNames rest := by
        simp [eventCallNames]
      rw [hnames]
      exact ih cc hplainrest hle
    | ev content isFinal =>
      have hfin : isFinal = false := by
        have := hplain (.ev content isFinal) (List.mem_cons_self _ _)
        simpa [AgentEvent.isPlain] using this
      subst hfin
      cases content with
      | none =>
        have hstep : runEvents m (.ev none false :: rest) cc = runEvents m rest cc := by
          simp [runEvents]
        have hnames : eventCallNames (.ev none false :: rest) = eventCallNames rest := by
          simp [eventCallNames]
        rw [hstep, hnames]
        exact ih cc hplainrest hle
      | some ps =>
        have hnames : eventCallNames (.ev (some ps) false :: rest) =
            partCallNames ps ++ eventCallNames rest := by
          simp [eventCallNames]
        rw [hnames]
        by_cases hab : (processParts m ps cc).2 = true
        · have hstep : runEvents m (.ev (some ps) false :: rest) cc = .loopAborted := by
            simp only [runEvents]
            rw [if_pos hab]
          rw [hstep]
          simp only [true_iff]
          obtain ⟨x, hx⟩ := (processParts_abort m ps cc hle).mp hab
          refine ⟨x, ?_⟩
          have : (partCallNames ps ++ eventCallNames rest).count x =
              (partCallNames ps).count x + (eventCallNames rest).count x := by
            simp [List.count_append]
          omega
        · have hab' : (processParts m ps cc).2 = false := by
            simpa using hab
          have hstep : runEvents m (.ev (some ps) false :: rest) cc =
              runEvents m rest (processParts m ps cc).1 := by
            simp only [runEvents]
            rw [if_neg hab]
            simp
          rw [hstep]
          have hsum := processParts_final m ps cc hab'
          have hle2 : ∀ x, getCount (processParts m ps cc).1 x ≤ m := by
            intro x
            rw [hsum x]
            by_contra hgt
            exact hab ((processParts_abort m ps cc hle).mpr ⟨x, by omega⟩)
          rw [ih (processParts m ps cc).1 hplainrest hle2]
          constructor
          · rintro ⟨x, hx⟩
            rw [hsum x] at hx
            refine ⟨x, ?_⟩
            have : (partCallNames ps ++ eventCallNames rest).count x =
                (partCallNames ps).count x + (eventCallNames rest).count x := by
              simp [List.count_append]
            omega
          · rintro ⟨x, hx⟩
            refine ⟨x, ?_⟩
            rw [hsum x]
            have : (partCallNames ps ++ eventCallNames rest).count x =
                (partCallNames ps).count x + (eventCallNames rest).count x := by
              simp [List.count_append]
            omega

/-- C6: over any event stream with no transport error and no final response,
the run loop ends in the loop abort exactly when some tool name's interpreted
call count exceeds the configured maximum; the counter counts every
`FunctionCall` part, whether or not a `FunctionResponse` ever follows, and the
abort fires at the (max+1)-th call before any later event is consumed. -/
theorem C6_loop_guard (m : Nat) (evs : List AgentEvent) (hplain : plainStream evs) :
    runEvents m evs [] = .loopAborted ↔
      ∃ name, (eventCallNames evs).count name > m := by
  have h := runEvents_loop m evs [] hplain (fun x => by simp [getCount, lookupA_nil])
  simpa [getCount, lookupA_nil] using h

theorem C6_loop_guard_witness :
    runEvents 5 (List.replicate 6 (callEvent "GetTableSample")) [] = .loopAborted ∧
    runEvents 5 (List.replicate 5 (callEvent "GetTableSample")) [] ≠ .loopAborted := by
  constructor
  · exact (C6_loop_guard 5 (List.replicate 6 (callEvent "GetTableSample"))
      (fun e he => by rw [List.eq_of_mem_replicate he]; rfl)).mpr ⟨"GetTableSample", by decide⟩
  · intro h
    obtain ⟨name, hname⟩ := (C6_loop_guard 5 (List.replicate 5 (callEvent "GetTableSample"))
      (fun e he => by rw [List.eq_of_mem_replicate he]; rfl)).mp h
    have hlen : (eventCallNames (List.replicate 5 (callEvent "GetTableSample"))).length = 5 := by
      decide
    have hle := List.count_le_length name
      (eventCallNames (List.replicate 5 (callEvent "GetTableSample")))
    omega

/-! ## Lemmas: `detectTokenType` -/

theorem fieldNameSwitch_ne_empty (fl : String) (t : TokenType)
    (h : fieldNameSwitch fl = some t) : t ≠ "" := by
  unfold fieldNameSwitch at h
  split_ifs at h <;> (injection h with h; subst h; decide)

/-- C8 counterexample: `account` is a configured sensitive field, matches no
field-name case of the switch, and the value `xyz` matches no content
pattern — the claim says "no type", but `detectTokenType` returns the default
`NAME`. -/
theorem C8_detect_counterexample :
    detectTokenType tokenizerPatterns defaultSensitiveFields "account" "xyz" = TokenTypeName ∧
    isSensitiveField "account" = true ∧
    fieldNameSwitch (goToLower "account") = none ∧
    dateMatch "xyz" = false ∧ emailMatch "xyz" = false ∧ phoneMatch "xyz" = false ∧
    TokenTypeName ≠ "" := by
  refine ⟨by decide, by decide, by decide, by decide, by decide, by decide, by decide⟩

/-- C8 amended: for any iteration order of the pattern map, `detectTokenType`
returns "no type" exactly when the field name matches none of the configured
sensitive-field substrings; for a sensitive field with no field-name match and
no content-pattern match it returns the default `NAME`, not "no type". -/
theorem C8_detect_amended (ps : List (TokenType × (String → Bool)))
    (fieldName value : String) (hps : ∀ p ∈ ps, p ∈ tokenizerPatterns) :
    (detectTokenType ps defaultSensitiveFields fieldName value = "" ↔
      isSensitiveField fieldName = false) ∧
    (isSensitiveField fieldName = true → fieldNameSwitch (goToLower fieldName) = none →
      (∀ p ∈ ps, p.2 value = false) →
      detectTokenType ps defaultSensitiveFields fieldName value = TokenTypeName) := by
  unfold detectTokenType
  dsimp only
  rw [show (defaultSensitiveFields.any fun sf =>
        goContains (goToLower fieldName) (goToLower sf)) = isSensitiveField fieldName
      from rfl]
  cases hsens : isSensitiveField fieldName with
  | false =>
    simp only [Bool.not_false, if_pos rfl]
    exact ⟨by simp, fun h => by simp at h⟩
  | true =>
    simp only [Bool.not_true, Bool.false_eq_true, if_false]
    constructor
    · cases hsw : fieldNameSwitch (goToLower fieldName) with
      | some t =>
        simp only [hsw]
        constructor
        · intro h; exact absurd h (fieldNameSwitch_ne_empty _ t hsw)
        · intro h; simp at h
      | none =>
        simp only [hsw]
        cases hfind : ps.find? (fun p => p.2 value) with
        | some p =>
          simp only [hfind]
          have hmem := hps p (List.mem_of_find?_eq_some hfind)
          have hne : p.1 ≠ "" := by
            simp only [tokenizerPatterns, List.mem_cons, List.not_mem_nil, or_false] at hmem
            rcases hmem with rfl | rfl | rfl <;> decide
          exact ⟨fun h => absurd h hne, fun h => by simp at h⟩
        | none =>
          simp only [hfind]
          exact ⟨fun h => absurd h (by decide), fun h => by simp at h⟩
    · intro _ hsw hall
      have hfind : ps.find? (fun p => p.2 value) = none :=
        List.find?_eq_none.mpr (fun p hp => by simp [hall p hp])
      simp only [hsw, hfind]

theorem C8_detect_amended_witness :
    (detectTokenType tokenizerPatterns defaultSensitiveFields "zzzz" "5" = "" ↔
      isSensitiveField "zzzz" = false) ∧
    detectTokenType tokenizerPatterns defaultSensitiveFields "account" "xyz" =
      TokenTypeName :=
  ⟨(C8_detect_amended tokenizerPatterns "zzzz" "5" (fun _ hp => hp)).1,
   (C8_detect_amended tokenizerPatterns "account" "xyz" (fun _ hp => hp)).2
     (by decide) (by decide)
     (fun p hp => by
       simp only [tokenizerPatterns, List.mem_cons, List.not_mem_nil, or_false] at hp
       rcases hp with rfl | rfl | rfl <;> decide)⟩

/-! ## Lemmas: the Response Interpreter -/

/-- The free-text path always produces exactly one part. -/
theorem interpret_text_length (content : String) :
    (interpretReply ⟨[], content⟩).length = 1 := by
  rw [interpretReply]
  simp only [List.length_nil, gt_iff_lt, lt_self_iff_false, if_false]
  by_cases hc : (content != "") = true
  · rw [if_pos hc]
    cases hf : firstDecodedLine (linesOf (goTrimSpace content)) with
    | some p =>
      obtain ⟨n, args⟩ := p
      simp
    | none =>
      simp only []
      cases hu : unmarshalFuncCall (goTrimSpace content) with
      | some p =>
        obtain ⟨n, args⟩ := p
        by_cases hn : (n != "") = true <;> simp [hn]
      | none => simp
  · rw [if_neg hc]
    simp

/-- C2 counterexample: a reply carrying two native structured tool calls is
interpreted into two invocations — the native path converts every call, it
does not collapse to the first. -/
theorem C2_interpreter_counterexample :
    (interpretReply twoNativeCalls).length = 2 ∧
    interpretReply twoNativeCalls =
      [GenPart.funcCall "GetDatabaseSchema" (some []),
       GenPart.funcCall "GetTableSample" (some [("table_name", JVal.jstr "patients")])] :=
  ⟨rfl, rfl⟩

/-- C2 amended: the free-text path produces exactly one outcome, and when
several consecutive JSON tool-call lines appear only the first decodable line
with a nonempty name is honored; but when the reply carries native structured
tool calls, every native call becomes an invocation (one part per call), so a
reply with several native calls yields several invocations. -/
theorem C2_interpreter_amended (r : ModelReplyMsg) :
    (r.toolCalls = [] → (interpretReply r).length = 1) ∧
    (r.toolCalls ≠ [] →
      interpretReply r =
        r.toolCalls.map (fun tc => GenPart.funcCall tc.name (nativeArgs tc.arguments))) ∧
    (∀ n args, r.toolCalls = [] →
      firstDecodedLine (linesOf (goTrimSpace r.content)) = some (n, args) →
      interpretReply r = [GenPart.funcCall n args]) := by
  refine ⟨?_, ?_, ?_⟩
  · intro htc
    obtain ⟨tcs, content⟩ := r
    simp only at htc
    subst htc
    exact interpret_text_length content
  · intro htc
    rw [interpretReply]
    cases htcs : r.toolCalls with
    | nil => exact absurd htcs htc
    | cons a l => simp [htcs]
  · intro n args htc hline
    obtain ⟨tcs, content⟩ := r
    simp only at htc hline
    subst htc
    by_cases hc : content = ""
    · subst hc
      have h0 : firstDecodedLine (linesOf (goTrimSpace "")) = none := rfl
      rw [h0] at hline
      exact Option.noConfusion hline
    · rw [interpretReply]
      simp only [List.length_nil, gt_iff_lt, lt_self_iff_false, if_false]
      rw [if_pos (by simpa [bne_iff_ne] using hc)]
      rw [hline]

theorem C2_interpreter_amended_witness :
    (interpretReply ⟨[], "свободный текст"⟩).length = 1 ∧
    interpretReply ⟨[], twoJsonLines⟩ = [GenPart.funcCall "A" (some [])] :=
  ⟨(C2_interpreter_amended ⟨[], "свободный текст"⟩).1 rfl,
   (C2_interpreter_amended ⟨[], twoJsonLines⟩).2.2 "A" (some []) rfl rfl⟩

/-- C9 counterexample: plain prose with trailing whitespace and no JSON comes
back as a `TextMessage` equal to the *trimmed* input, not the input itself. -/
theorem C9_text_counterexample :
    interpretReply ⟨[], "hello "⟩ = [GenPart.text "hello"] ∧
    "hello" ≠ "hello " :=
  ⟨rfl, by decide⟩

/-- C9 amended: with no native tool calls, when no line decodes as a tool call
and the whole text does not decode as one, the interpreter returns one
`TextMessage` whose text is `strings.TrimSpace` of the input content. -/
theorem C9_text_amended (content : String) (h1 : content ≠ "")
    (h2 : firstDecodedLine (linesOf (goTrimSpace content)) = none)
    (h3 : noCallWhole (goTrimSpace content)) :
    interpretReply ⟨[], content⟩ = [GenPart.text (goTrimSpace content)] := by
  rw [interpretReply]
  simp only [List.length_nil, gt_iff_lt, lt_self_iff_false, if_false]
  rw [if_pos (by simpa [bne_iff_ne] using h1)]
  rw [h2]
  cases hu : unmarshalFuncCall (goTrimSpace content) with
  | some p =>
    obtain ⟨n, args⟩ := p
    rw [noCallWhole, hu] at h3
    subst h3
    simp
  | none => simp

theorem C9_text_amended_witness :
    interpretReply ⟨[], "hello"⟩ = [GenPart.text (goTrimSpace "hello")] :=
  C9_text_amended "hello" (by decide) rfl trivial

/-! ## The sample tool, the validator, and the CSV sink at the claimed inputs -/

/-- C1: `GetTableSample` hands the model the raw cell values.  For an enabled
tokenizer with the default sensitive-field config, a `patients` sample with a
`name` column renders `name=Иван Иванов` verbatim: the raw value appears in
the model-facing text, while the tokenization the claim requires would have
produced `NAME_001` — which appears nowhere.  The renderer takes no tokenizer
state at all, because the source never calls the tokenizer. -/
theorem C1_sample_not_tokenized :
    renderSample "patients" ["name"] [["Иван Иванов"]] =
      "Первые 10 строк из таблицы patients:\n\nКолонки: name\n\nСтрока 1: name=Иван Иванов\n" ∧
    goContains (renderSample "patients" ["name"] [["Иван Иванов"]]) "Иван Иванов" = true ∧
    detectTokenType tokenizerPatterns defaultSensitiveFields "name" "Иван Иванов" =
      TokenTypeName ∧
    (Tokenize (newTokenizer true) "Иван Иванов" TokenTypeName).1 = "NAME_001" ∧
    goContains (renderSample "patients" ["name"] [["Иван Иванов"]]) "NAME_001" = false := by
  refine ⟨by decide, by decide, by decide, by decide, by decide⟩

/-- C3: the validator checks only `DROP|DELETE|UPDATE|INSERT`.  The query
`SELECT * FROM x; CREATE TABLE y (z INT)` contains `CREATE`, which the claim
(and the repository's guide) lists as forbidden, yet `ExecuteQuery` accepts
it, sends it to the database and reports a successful export. -/
theorem C3_forbidden_keywords_bug :
    goContains (goToUpper (goTrimSpace createQuery)) "CREATE" = true ∧
    (ExecuteQuery (some dbStub) (newTokenizer true) createQuery "out.csv").queriesRun =
      [createQuery] ∧
    (ExecuteQuery (some dbStub) (newTokenizer true) createQuery "out.csv").result =
      .ok "Запрос выполнен успешно. Экспортировано 0 строк в файл out.csv" := by
  refine ⟨by decide, by decide, rfl⟩

/-- C4: the CSV sink translates headers through the fixed dictionary —
`code, diagnosis` becomes `код_мкб,название_диагноза` — but writes no
byte-order mark: the file starts directly with the header bytes, not with
U+FEFF / `EF BB BF`, although the repository's guide calls the BOM
mandatory. -/
theorem C4_csv_bom_bug :
    exportCSVContent (newTokenizer true) ["code", "diagnosis"]
        [[.str "a00", .str "Холера"]] =
      "код_мкб,название_диагноза\na00,Холера\n" ∧
    goStartsWith
      (exportCSVContent (newTokenizer true) ["code", "diagnosis"]
        [[.str "a00", .str "Холера"]]) bomStr = false ∧
    (utf8Bytes
      (exportCSVContent (newTokenizer true) ["code", "diagnosis"]
        [[.str "a00", .str "Холера"]])).take 3 ≠ bomBytes ∧
    goStartsWith
      (exportCSVContent (newTokenizer true) ["code", "diagnosis"]
        [[.str "a00", .str "Холера"]]) "код_мкб,название_диагноза" = true := by
  refine ⟨by decide, by decide, by decide, by decide⟩
